import Mathlib

/-!
Verification development for the Net_Worth_Calculator web application
(src/main.py, src/models.py, src/database.py).

The development shallowly embeds the identity / session / ledger slice of the
application:

* the session token codec (`create_session_cookie` / `get_user_id_from_cookie`
  in src/main.py, which delegate to an itsdangerous `URLSafeSerializer`:
  token = base64url(json(user_id)) ++ "." ++ base64url(HMAC-SHA1(key, payload))),
* identity resolution (`get_current_user`),
* the routes `calculate`, `signup`, `login`, `history`.

Modelling conventions:

* Python numeric form fields (floats) are modelled as exact rationals `ℚ`.
* Byte strings are `List Nat` with entries `< 256`; the HMAC primitive is an
  external cryptographic collaborator and is therefore a parameter
  `mac : String → List Nat` of every codec definition (the source computes it
  as `HMAC-SHA1(derived key, payload bytes)`; its output is always 20 bytes).
* base64url encoding/decoding follows Python's `base64.urlsafe_b64decode` as
  invoked by itsdangerous: unpadded, and on decoding the excess bits of the
  final group are silently discarded.  (Python's decoder additionally drops
  characters outside the alphabet; here such characters make decoding fail.
  For every input considered by a theorem below the two behaviours agree on
  whether verification succeeds.)
* The database is explicit state: lists of user and calculation rows plus the
  autoincrement counters; `created_at` timestamps are `Nat` supplied by the
  caller (the source uses server-side `now()`).
-/

deriving instance DecidableEq for Except

namespace NW

/-! ## base64url (as used by itsdangerous: unpadded, urlsafe alphabet) -/

/-- Value of one base64url character: `A`-`Z` ↦ 0-25, `a`-`z` ↦ 26-51,
`0`-`9` ↦ 52-61, `-` ↦ 62, `_` ↦ 63, anything else fails. -/
def charVal (c : Char) : Option Nat :=
  if 65 ≤ c.toNat ∧ c.toNat ≤ 90 then some (c.toNat - 65)
  else if 97 ≤ c.toNat ∧ c.toNat ≤ 122 then some (c.toNat - 97 + 26)
  else if 48 ≤ c.toNat ∧ c.toNat ≤ 57 then some (c.toNat - 48 + 52)
  else if c = '-' then some 62
  else if c = '_' then some 63
  else none

/-- Character of one base64url value (inverse of `charVal` below 64). -/
def valToChar (v : Nat) : Char :=
  Char.ofNat
    (if v < 26 then 65 + v
     else if v < 52 then 71 + v
     else if v < 62 then v - 4
     else if v = 62 then 45
     else 95)

/-- Base64 six-bit values of a byte list (3 bytes ↦ 4 values, a trailing byte
↦ 2 values, two trailing bytes ↦ 3 values; unused low bits of the final value
are zero, as produced by Python's encoder before padding is stripped). -/
def encVals : List Nat → List Nat
  | a :: b :: c :: rest =>
      (a / 4) :: ((a % 4) * 16 + b / 16) :: ((b % 16) * 4 + c / 64) :: (c % 64) ::
        encVals rest
  | [a] => [a / 4, (a % 4) * 16]
  | [a, b] => [a / 4, (a % 4) * 16 + b / 16]  ++ [(b % 16) * 4]
  | [] => []

/-- Bytes recovered from base64 six-bit values; the excess bits of a trailing
group are discarded exactly as Python's (non-strict) decoder does. -/
def decodeVals : List Nat → List Nat
  | x :: y :: z :: w :: rest =>
      (x * 4 + y / 16) :: ((y % 16) * 16 + z / 4) :: ((z % 4) * 64 + w) ::
        decodeVals rest
  | [x, y] => [x * 4 + y / 16]
  | [x, y, z] => [x * 4 + y / 16, (y % 16) * 16 + z / 4]
  | _ => []

/-- itsdangerous `base64_encode`: unpadded urlsafe base64 of a byte list. -/
def b64encodeL (bs : List Nat) : List Char :=
  (encVals bs).map valToChar

/-- Six-bit values of a character list; fails iff some character is outside
the base64url alphabet. -/
def charVals : List Char → Option (List Nat)
  | [] => some []
  | c :: rest =>
      match charVal c, charVals rest with
      | some v, some vs => some (v :: vs)
      | _, _ => none

/-- itsdangerous `base64_decode` on a character list: pad-and-decode; a data
length that is 1 mod 4 is a `binascii` error, and the trailing excess bits of
the last group are discarded. -/
def b64decodeL (l : List Char) : Option (List Nat) :=
  match charVals l with
  | none => none
  | some vs => if vs.length % 4 = 1 then none else some (decodeVals vs)

/-! ## JSON integer payloads (the serializer stores `json.dumps(user_id)`) -/

/-- Fuel-driven helper for the decimal digits of a natural number (fuel `n`
always suffices, and structural recursion keeps the function reducible by
the kernel). -/
def natDigitsAux : Nat → Nat → List Nat
  | 0, n => [n % 10]
  | fuel + 1, n =>
      if n < 10 then [n] else natDigitsAux fuel (n / 10) ++ [n % 10]

/-- Decimal digits of a natural number, most significant first. -/
def natDigits (n : Nat) : List Nat :=
  natDigitsAux n n

/-- UTF-8 bytes of `json.dumps(n)` for a natural number: its decimal digits
as ASCII. -/
def jsonDumpsNat (n : Nat) : List Nat :=
  (natDigits n).map (· + 48)

/-- Fold decimal ASCII bytes onto an accumulator; fails on a non-digit. -/
def parseDigitsAcc : List Nat → Nat → Option Nat
  | [], acc => some acc
  | b :: rest, acc =>
      if 48 ≤ b ∧ b ≤ 57 then parseDigitsAcc rest (acc * 10 + (b - 48)) else none

/-- Parse of a JSON natural number literal: nonempty digits, no leading zero
(except the literal `0` itself). -/
def parseJsonNat : List Nat → Option Nat
  | [] => none
  | b :: rest =>
      if b = 48 then (if rest = [] then some 0 else none)
      else parseDigitsAcc (b :: rest) 0

/-- `json.loads` restricted to integer payloads: optional minus sign followed
by a natural literal.  (Payloads the application itself signs are always the
decimal user id; any other byte sequence makes the Python call raise, which
the serializer converts to `BadPayload`.) -/
def jsonParseInt : List Nat → Option Int
  | [] => none
  | b :: rest =>
      if b = 45 then (parseJsonNat rest).map (fun n => -(n : Int))
      else (parseJsonNat (b :: rest)).map Int.ofNat

/-! ## Signer (itsdangerous `Signer` with separator `"."`) -/

/-- Outcomes of `serializer.loads` that raise: `BadSignature` for a missing
separator or failed integrity check, `BadPayload` for a payload that cannot
be decoded once the signature has verified.  Only `BadSignature` is caught by
`get_user_id_from_cookie` in src/main.py. -/
inductive LoadErr where
  | badSignature
  | badPayload
deriving DecidableEq, Repr

/-- Python `value.rsplit(".", 1)` preceded by the `"." in value` membership
test of `Signer.unsign`: split at the rightmost dot, or fail when there is
none. -/
def rsplitDot : List Char → Option (List Char × List Char)
  | [] => none
  | c :: rest =>
      match rsplitDot rest with
      | some (a, b) => some (c :: a, b)
      | none => if c = '.' then some ([], rest) else none

/-- Payload bytes of the token issued for `uid`: base64url of the JSON user
id, the value the signer authenticates. -/
def payloadChars (uid : Nat) : List Char :=
  b64encodeL (jsonDumpsNat uid)

/-- Payload of the token for `uid` as the string over which the HMAC is
computed. -/
def payloadStr (uid : Nat) : String :=
  String.mk (payloadChars uid)

/-- itsdangerous `URLSafeSerializer.dumps` on a user id, with the HMAC
primitive abstracted as `mac`: signed token `payload ++ "." ++
base64url(mac payload)`.  (zlib compression never fires for these short
payloads, so the uncompressed branch is the one modelled.) -/
def dumpsL (mac : String → List Nat) (uid : Nat) : List Char :=
  payloadChars uid ++ '.' :: b64encodeL (mac (payloadStr uid))

/-- Serializer `load_payload`: a leading dot selects the zlib-decompression
branch (which fails on every payload this application ever signs); otherwise
base64-decode and JSON-parse, converting any failure to `BadPayload`. -/
def loadPayload (p : List Char) : Except LoadErr Int :=
  if p.head? = some '.' then .error .badPayload
  else
    match b64decodeL p with
    | none => .error .badPayload
    | some bytes =>
        match jsonParseInt bytes with
        | none => .error .badPayload
        | some n => .ok n

/-- itsdangerous `URLSafeSerializer.loads` over a character list: split at the
rightmost dot, base64-decode the signature (failure means the integrity check
fails), compare with the recomputed HMAC, then load the payload. -/
def loadsL (mac : String → List Nat) (tok : List Char) : Except LoadErr Int :=
  match rsplitDot tok with
  | none => .error .badSignature
  | some (value, sig) =>
      match charVals sig with
      | none => .error .badSignature
      | some vs =>
          if vs.length % 4 = 1 then .error .badSignature
          else if decodeVals vs = mac (String.mk value) then loadPayload value
          else .error .badSignature

/-- `serializer.loads` on a string. -/
def loads (mac : String → List Nat) (s : String) : Except LoadErr Int :=
  loadsL mac s.data

/-- src/main.py `create_session_cookie`: `serializer.dumps(user_id)`. -/
def create_session_cookie (mac : String → List Nat) (user_id : Nat) : String :=
  String.mk (dumpsL mac user_id)

/-- src/main.py `get_user_id_from_cookie`: `None` for a missing or falsy
(empty) cookie, the decoded id on success, `None` on `BadSignature`; a
`BadPayload` escape is an uncaught exception, modelled as `.error ()`. -/
def get_user_id_from_cookie (mac : String → List Nat) (session : Option String) :
    Except Unit (Option Int) :=
  match session with
  | none => .ok none
  | some s =>
      if s = "" then .ok none
      else
        match loads mac s with
        | .ok uid => .ok (some uid)
        | .error .badSignature => .ok none
        | .error .badPayload => .error ()

/-! ## Data model (src/models.py) and database state

The relational store is explicit state: the two tables as lists in insertion
order plus the autoincrement counters.  `created_at` values are `Nat`
timestamps assigned by the server (`func.now()`), passed in by the caller. -/

/-- Row of the `users` table (src/models.py `User`). -/
structure UserR where
  id : Nat
  name : String
  email : String
  password_hash : String
  created_at : Nat
deriving DecidableEq, Repr

/-- Python dict of the five asset form fields built by `calculate`
(keys `"Cash / Savings"`, `"Investments"`, `"Property"`, `"Vehicles"`,
`"Other Assets"`), modelled as a record. -/
structure AssetsMap where
  cash : ℚ
  investments : ℚ
  property_value : ℚ
  vehicles : ℚ
  other_assets : ℚ
deriving DecidableEq, Repr

/-- Python dict of the five liability form fields built by `calculate`
(keys `"Mortgage"`, `"Student Loans"`, `"Credit Card Debt"`, `"Car Loans"`,
`"Other Liabilities"`), modelled as a record. -/
structure LiabilitiesMap where
  mortgage : ℚ
  student_loans : ℚ
  credit_card : ℚ
  car_loans : ℚ
  other_liabilities : ℚ
deriving DecidableEq, Repr

/-- Row of the `calculations` table (src/models.py `Calculation`). -/
structure CalcR where
  id : Nat
  user_id : Nat
  assets : AssetsMap
  liabilities : LiabilitiesMap
  total_assets : ℚ
  total_liabilities : ℚ
  net_worth : ℚ
  created_at : Nat
deriving DecidableEq, Repr

/-- Database state: both tables in insertion order plus the autoincrement
counters for their primary keys. -/
structure DB where
  users : List UserR
  calcs : List CalcR
  nextUserId : Nat
  nextCalcId : Nat
deriving DecidableEq, Repr

/-- src/main.py `get_current_user`: decode the cookie, then
`SELECT * FROM users WHERE id = user_id` (`scalar_one_or_none`; ids are the
primary key, so at most one row matches and the lookup is a `find?`).  A
`BadPayload` escape from the cookie decoder propagates. -/
def get_current_user (mac : String → List Nat) (db : DB) (session : Option String) :
    Except Unit (Option UserR) :=
  match get_user_id_from_cookie mac session with
  | .error e => .error e
  | .ok none => .ok none
  | .ok (some uid) => .ok (db.users.find? (fun u => (u.id : Int) = uid))

/-! ## Routes (src/main.py) -/

/-- Template context returned by the `calculate` route: the pieces of
`index.html`'s context that the claims talk about. -/
structure CalcResponse where
  user : Option UserR
  assets : AssetsMap
  liabilities : LiabilitiesMap
  total_assets : ℚ
  total_liabilities : ℚ
  net_worth : ℚ
  show_result : Bool
  saved : Bool
deriving DecidableEq, Repr

/-- src/main.py `calculate` route.  Form fields default to 0 when absent
(`Form(0)`), hence the `Option ℚ` inputs.  Totals are
`sum(assets.values())`, `sum(liabilities.values())` and their difference;
when the resolved identity is a user a `Calculation` row is inserted and
committed, otherwise the store is untouched and the response's `saved` flag
is false. -/
def calculate (mac : String → List Nat) (db : DB) (now : Nat)
    (cash investments property_value vehicles other_assets
     mortgage student_loans credit_card car_loans other_liabilities : Option ℚ)
    (session : Option String) : Except Unit (CalcResponse × DB) :=
  let assets : AssetsMap :=
    ⟨cash.getD 0, investments.getD 0, property_value.getD 0, vehicles.getD 0,
      other_assets.getD 0⟩
  let liabilities : LiabilitiesMap :=
    ⟨mortgage.getD 0, student_loans.getD 0, credit_card.getD 0, car_loans.getD 0,
      other_liabilities.getD 0⟩
  let total_assets := assets.cash + assets.investments + assets.property_value +
    assets.vehicles + assets.other_assets
  let total_liabilities := liabilities.mortgage + liabilities.student_loans +
    liabilities.credit_card + liabilities.car_loans + liabilities.other_liabilities
  let net_worth := total_assets - total_liabilities
  match get_current_user mac db session with
  | .error e => .error e
  | .ok user =>
      let db' :=
        match user with
        | some u =>
            { db with
                calcs := db.calcs ++
                  [⟨db.nextCalcId, u.id, assets, liabilities, total_assets,
                    total_liabilities, net_worth, now⟩],
                nextCalcId := db.nextCalcId + 1 }
        | none => db
      .ok (⟨user, assets, liabilities, total_assets, total_liabilities, net_worth,
            true, user.isSome⟩, db')

/-- Response of the `signup` route: a re-rendered form with an error message
and the preserved non-secret fields, or a redirect that sets the session
cookie. -/
inductive SignupResult where
  | formError (msg name email : String)
  | redirectHome (cookie : String)
deriving DecidableEq, Repr

/-- The storage layer's side of a user insert: src/models.py declares
`email` with `unique=True`, so the commit of a new user row fails (an
`IntegrityError` at `db.commit()`) exactly when the email is already present
in the table at commit time. -/
def commitUser (db : DB) (u : UserR) : Except Unit DB :=
  if db.users.any (fun v => v.email = u.email) then .error ()
  else .ok { db with users := db.users ++ [u], nextUserId := db.nextUserId + 1 }

/-- src/main.py `signup` route with the check/commit race window made
explicit: the validations and the duplicate-email `SELECT` read `dbCheck`
(the table as of the request's query), while the commit applies to
`dbCommit` (the table as of `db.commit()`, which a concurrent request may
have extended).  The route has no handler around `db.commit()`, so a
commit-time constraint violation propagates as `.error ()`. -/
def signupRacing (mac : String → List Nat) (hashpw : String → String)
    (dbCheck dbCommit : DB) (now : Nat)
    (name email password confirm_password : String) :
    Except Unit (SignupResult × DB) :=
  if password ≠ confirm_password then
    .ok (.formError "Passwords do not match." name email, dbCommit)
  else if password.length < 6 then
    .ok (.formError "Password must be at least 6 characters." name email, dbCommit)
  else if (dbCheck.users.find? (fun u => u.email = email)).isSome then
    .ok (.formError "An account with this email already exists." name email, dbCommit)
  else
    let u : UserR := ⟨dbCommit.nextUserId, name, email, hashpw password, now⟩
    match commitUser dbCommit u with
    | .error e => .error e
    | .ok db' => .ok (.redirectHome (create_session_cookie mac u.id), db')

/-- src/main.py `signup` route in the sequential (single-request) case: the
check and the commit observe the same table state. -/
def signup (mac : String → List Nat) (hashpw : String → String) (db : DB)
    (now : Nat) (name email password confirm_password : String) :
    Except Unit (SignupResult × DB) :=
  signupRacing mac hashpw db db now name email password confirm_password

/-- Response of the `login` route: the re-rendered form with the error
message and the echoed email, or a redirect that sets the session cookie. -/
inductive LoginResult where
  | formError (msg email : String)
  | redirectHome (cookie : String)
deriving DecidableEq, Repr

/-- src/main.py `login` route: `SELECT * FROM users WHERE email = email`
(emails are unique, so a `find?`), then
`if not user or not bcrypt.checkpw(password, user.password_hash)` return the
single undifferentiated error; otherwise set the session cookie.  The bcrypt
verifier is the external parameter `checkpw`. -/
def login (mac : String → List Nat) (checkpw : String → String → Bool) (db : DB)
    (email password : String) : LoginResult :=
  match db.users.find? (fun u => u.email = email) with
  | none => .formError "Invalid email or password." email
  | some user =>
      if checkpw password user.password_hash then
        .redirectHome (create_session_cookie mac user.id)
      else .formError "Invalid email or password." email

/-! ## History (src/main.py `history` route) -/

/-- Stable insert for the descending-timestamp sort: the inserted element
(earlier in the scanned table) goes in front of every element whose
timestamp it ties or beats. -/
def insertByDesc (x : CalcR) : List CalcR → List CalcR
  | [] => [x]
  | y :: ys =>
      if y.created_at ≤ x.created_at then x :: y :: ys else y :: insertByDesc x ys

/-- Stable sort by `created_at` descending: the model of the storage
collaborator's `ORDER BY created_at DESC` applied to rows in table
(insertion) order, ties kept in insertion order. -/
def sortByCreatedDesc : List CalcR → List CalcR
  | [] => []
  | x :: xs => insertByDesc x (sortByCreatedDesc xs)

/-- The query of the `history` route:
`SELECT * FROM calculations WHERE user_id = uid ORDER BY created_at DESC`. -/
def historyQuery (db : DB) (uid : Nat) : List CalcR :=
  sortByCreatedDesc (db.calcs.filter (fun c => c.user_id = uid))

/-- Response of the `history` route: redirect to `/login` for an anonymous
identity, or the rendered page with the owner and their calculations. -/
inductive HistoryResult where
  | redirectLogin
  | page (user : UserR) (calculations : List CalcR)
deriving DecidableEq, Repr

/-- src/main.py `history` route: resolve the identity; anonymous means a
redirect to the login view, a user means the page with that user's
calculations ordered newest first. -/
def history (mac : String → List Nat) (db : DB) (session : Option String) :
    Except Unit HistoryResult :=
  match get_current_user mac db session with
  | .error e => .error e
  | .ok none => .ok .redirectLogin
  | .ok (some u) => .ok (.page u (historyQuery db u.id))

/-! ## Concrete instances used by witnesses and counterexamples

The HMAC parameter of the codec is instantiated with simple concrete
functions: a constant 20-byte MAC, and a MAC that distinguishes the payload
`"MQ"` (the payload of user id 1) from every other string, which satisfies
the collision-freeness hypotheses of the token theorems. -/

/-- Constant 20-byte MAC. -/
def macConst : String → List Nat := fun _ => List.replicate 20 0

/-- MAC giving the payload of user id 1 (the string `"MQ"`) one 20-byte tag
and every other string a different one. -/
def macMQ : String → List Nat :=
  fun s => if s = "MQ" then List.replicate 20 0 else List.replicate 20 1

/-- Bcrypt stand-in used by witnesses: a verifier that always rejects. -/
def checkpwNever : String → String → Bool := fun _ _ => false

/-- Bcrypt hashing stand-in used by witnesses. -/
def hashpw0 : String → String := fun s => String.append "h" s

/-- Sample user row. -/
def user1 : UserR := ⟨1, "A", "a@x.com", "H1", 0⟩

/-- Database containing only `user1`. -/
def db1 : DB := ⟨[user1], [], 2, 1⟩

/-- Empty database. -/
def dbEmpty : DB := ⟨[], [], 1, 1⟩

/-- Sample calculation owned by user 1 at time 10. -/
def calcA : CalcR := ⟨1, 1, ⟨0, 0, 0, 0, 0⟩, ⟨0, 0, 0, 0, 0⟩, 0, 0, 0, 10⟩

/-- Sample calculation owned by user 1 at time 20. -/
def calcB : CalcR := ⟨2, 1, ⟨5, 0, 0, 0, 0⟩, ⟨0, 0, 0, 0, 0⟩, 5, 0, 5, 20⟩

/-- Database with `user1` and two calculations at times 10 and 20. -/
def dbHist : DB := ⟨[user1], [calcA, calcB], 2, 3⟩

/-- Response of the sample anonymous calculation used by the C1 witness (the
total fields are written as the sums `calculate` builds; they evaluate to
1, 1 and 0). -/
def calcResp1 : CalcResponse :=
  ⟨none, ⟨3, 0, -2, 0, 0⟩, ⟨1, 0, 0, 0, 0⟩, 3 + 0 + -2 + 0 + 0,
    1 + 0 + 0 + 0 + 0, (3 + 0 + -2 + 0 + 0) - (1 + 0 + 0 + 0 + 0), true, false⟩

/-- Two base64url characters that agree on their four high (significant)
bits: interchanging them in the final position of a 20-byte signature
changes only the two excess bits that Python's base64 decoder discards. -/
def slackEquiv (a b : Char) : Prop :=
  ∃ v w : Nat, charVal a = some v ∧ charVal b = some w ∧ v / 4 = w / 4

/-- Ordering the history page must satisfy: strictly newer first, ties in
primary-key (= insertion) order. -/
def newestFirst (a b : CalcR) : Prop :=
  b.created_at < a.created_at ∨ (a.created_at = b.created_at ∧ a.id < b.id)

/-! ## Lemmas about the base64url codec -/

theorem charVal_valToChar : ∀ v : Nat, v < 64 → charVal (valToChar v) = some v := by
  decide

theorem valToChar_ne_dot : ∀ v : Nat, v < 64 → valToChar v ≠ '.' := by
  decide

theorem charVal_lt {c : Char} {v : Nat} (h : charVal c = some v) : v < 64 := by
  unfold charVal at h
  split_ifs at h <;> simp only [Option.some.injEq] at h <;> omega

theorem charVal_to_valToChar {c : Char} {v : Nat} (h : charVal c = some v) :
    c = valToChar v := by
  unfold charVal at h
  split_ifs at h with h1 h2 h3 h4 h5 <;>
    simp only [Option.some.injEq] at h <;> subst h
  · have hv : 65 + (c.toNat - 65) = c.toNat := by omega
    rw [valToChar, if_pos (by omega), hv, Char.ofNat_toNat]
  · have hv : 71 + (c.toNat - 97 + 26) = c.toNat := by omega
    rw [valToChar, if_neg (by omega), if_pos (by omega), hv, Char.ofNat_toNat]
  · have hv : c.toNat - 48 + 52 - 4 = c.toNat := by omega
    rw [valToChar, if_neg (by omega), if_neg (by omega), if_pos (by omega), hv,
      Char.ofNat_toNat]
  · subst h4
    decide
  · subst h5
    decide

theorem charVal_inj {c₁ c₂ : Char} {v : Nat} (h₁ : charVal c₁ = some v)
    (h₂ : charVal c₂ = some v) : c₁ = c₂ := by
  rw [charVal_to_valToChar h₁, charVal_to_valToChar h₂]

theorem encVals_lt : ∀ bs : List Nat, (∀ b ∈ bs, b < 256) →
    ∀ v ∈ encVals bs, v < 64
  | [], _ => by simp [encVals]
  | [a], h => by
      have ha : a < 256 := h a (by simp)
      simp only [encVals, List.mem_cons, List.not_mem_nil, or_false]
      rintro v (rfl | rfl) <;> omega
  | [a, b], h => by
      have ha : a < 256 := h a (by simp)
      have hb : b < 256 := h b (by simp)
      simp only [encVals, List.cons_append, List.nil_append, List.mem_cons,
        List.not_mem_nil, or_false]
      rintro v (rfl | rfl | rfl) <;> omega
  | a :: b :: c :: rest, h => by
      have ha : a < 256 := h a (by simp)
      have hb : b < 256 := h b (by simp)
      have hc : c < 256 := h c (by simp)
      have ih := encVals_lt rest (fun x hx => h x (by simp [hx]))
      simp only [encVals, List.mem_cons]
      rintro v (rfl | rfl | rfl | rfl | hv)
      · omega
      · omega
      · omega
      · omega
      · exact ih v hv

theorem decodeVals_encVals : ∀ bs : List Nat, (∀ b ∈ bs, b < 256) →
    decodeVals (encVals bs) = bs
  | [] => by simp [encVals, decodeVals]
  | [a] => fun h => by
      have ha : a < 256 := h a (by simp)
      simp only [encVals, decodeVals, List.cons.injEq, and_true]
      omega
  | [a, b] => fun h => by
      have ha : a < 256 := h a (by simp)
      have hb : b < 256 := h b (by simp)
      simp only [encVals, List.cons_append, List.nil_append, decodeVals,
        List.cons.injEq, and_true]
      omega
  | a :: b :: c :: rest => fun h => by
      have ha : a < 256 := h a (by simp)
      have hb : b < 256 := h b (by simp)
      have hc : c < 256 := h c (by simp)
      have ih := decodeVals_encVals rest (fun x hx => h x (by simp [hx]))
      simp only [encVals, decodeVals, ih, List.cons.injEq, and_true]
      omega

theorem encVals_length : ∀ bs : List Nat, (encVals bs).length =
    4 * (bs.length / 3) + (if bs.length % 3 = 0 then 0 else bs.length % 3 + 1)
  | [] => by simp [encVals]
  | [a] => by simp [encVals]
  | [a, b] => by simp [encVals]
  | a :: b :: c :: rest => by
      have ih := encVals_length rest
      simp only [encVals, List.length_cons, ih]
      split_ifs <;> omega

theorem encVals_length_mod (bs : List Nat) : (encVals bs).length % 4 ≠ 1 := by
  rw [encVals_length]
  split_ifs <;> omega

theorem charVals_map_valToChar : ∀ vs : List Nat, (∀ v ∈ vs, v < 64) →
    charVals (vs.map valToChar) = some vs
  | [], _ => rfl
  | v :: rest, h => by
      have ih := charVals_map_valToChar rest (fun x hx => h x (by simp [hx]))
      simp only [List.map_cons, charVals, ih, charVal_valToChar v (h v (by simp))]

theorem charVals_length : ∀ {l : List Char} {vs : List Nat},
    charVals l = some vs → vs.length = l.length
  | [], vs => by intro h; simp [charVals] at h; simp [← h]
  | c :: rest, vs => by
      intro h
      simp only [charVals] at h
      cases hc : charVal c with
      | none => rw [hc] at h; simp at h
      | some v =>
          rw [hc] at h
          cases hr : charVals rest with
          | none => rw [hr] at h; simp at h
          | some ws =>
              rw [hr] at h
              simp only [Option.some.injEq] at h
              have := charVals_length hr
              simp [← h, this]

theorem b64decodeL_b64encodeL (bs : List Nat) (h : ∀ b ∈ bs, b < 256) :
    b64decodeL (b64encodeL bs) = some bs := by
  unfold b64decodeL b64encodeL
  rw [charVals_map_valToChar _ (encVals_lt bs h)]
  simp [encVals_length_mod bs, decodeVals_encVals bs h]

theorem mem_b64encodeL {bs : List Nat} (h : ∀ b ∈ bs, b < 256) {c : Char}
    (hc : c ∈ b64encodeL bs) : ∃ v, v < 64 ∧ c = valToChar v := by
  unfold b64encodeL at hc
  obtain ⟨v, hv, rfl⟩ := List.mem_map.mp hc
  exact ⟨v, encVals_lt bs h v hv, rfl⟩

theorem dot_not_mem_b64encodeL {bs : List Nat} (h : ∀ b ∈ bs, b < 256) :
    '.' ∉ b64encodeL bs := by
  intro hmem
  obtain ⟨v, hv, hc⟩ := mem_b64encodeL h hmem
  exact valToChar_ne_dot v hv hc.symm

/-! ## Lemmas about `rsplitDot` -/

theorem rsplitDot_of_no_dot : ∀ l : List Char, '.' ∉ l → rsplitDot l = none
  | [], _ => rfl
  | c :: rest, h => by
      have ih := rsplitDot_of_no_dot rest (fun hm => h (by simp [hm]))
      have hc : c ≠ '.' := fun hc => h (by simp [hc])
      simp [rsplitDot, ih, hc]

theorem rsplitDot_append : ∀ (p s : List Char), '.' ∉ s →
    rsplitDot (p ++ '.' :: s) = some (p, s)
  | [], s, h => by
      simp [rsplitDot, rsplitDot_of_no_dot s h]
  | c :: p', s, h => by
      have ih := rsplitDot_append p' s h
      simp [rsplitDot, ih]

/-! ## Lemmas about the JSON integer payload -/

theorem natDigitsAux_congr : ∀ f₁ f₂ n : Nat, n ≤ f₁ → n ≤ f₂ →
    natDigitsAux f₁ n = natDigitsAux f₂ n := by
  intro f₁
  induction f₁ with
  | zero =>
      intro f₂ n h₁ h₂
      have hn : n = 0 := by omega
      subst hn
      cases f₂ with
      | zero => rfl
      | succ g => simp [natDigitsAux]
  | succ f ih =>
      intro f₂ n h₁ h₂
      cases f₂ with
      | zero =>
          have hn : n = 0 := by omega
          subst hn
          simp [natDigitsAux]
      | succ g =>
          simp only [natDigitsAux]
          split
          · rfl
          · rename_i hge
            rw [ih g (n / 10) (by omega) (by omega)]

theorem natDigits_eq (n : Nat) :
    natDigits n = if n < 10 then [n] else natDigits (n / 10) ++ [n % 10] := by
  show natDigitsAux n n = _
  cases n with
  | zero => simp [natDigitsAux]
  | succ m =>
      simp only [natDigitsAux]
      split
      · rfl
      · rename_i hge
        rw [natDigitsAux_congr m ((m + 1) / 10) ((m + 1) / 10) (by omega)
          (by omega)]
        rfl

theorem natDigits_lt : ∀ n : Nat, ∀ d ∈ natDigits n, d < 10 := by
  intro n
  induction n using Nat.strong_induction_on with
  | _ n ih =>
      intro d hd
      rw [natDigits_eq] at hd
      split at hd
      · simp at hd; omega
      · rw [List.mem_append] at hd
        rcases hd with hd | hd
        · exact ih (n / 10) (Nat.div_lt_self (by omega) (by omega)) d hd
        · simp at hd; omega

theorem natDigits_ne_nil (n : Nat) : natDigits n ≠ [] := by
  rw [natDigits_eq]
  split
  · simp
  · simp

theorem natDigits_head_ne_zero : ∀ n : Nat, n ≠ 0 →
    ∀ d rest, natDigits n = d :: rest → d ≠ 0 := by
  intro n
  induction n using Nat.strong_induction_on with
  | _ n ih =>
      intro hn d rest hd
      rw [natDigits_eq] at hd
      split at hd
      · simp only [List.cons.injEq] at hd
        obtain ⟨h1, _⟩ := hd
        omega
      · rename_i hge
        rcases hsub : natDigits (n / 10) with _ | ⟨e, tail⟩
        · exact absurd hsub (natDigits_ne_nil _)
        · rw [hsub] at hd
          simp only [List.cons_append, List.cons.injEq] at hd
          obtain ⟨h1, _⟩ := hd
          have he := ih (n / 10) (Nat.div_lt_self (by omega) (by omega))
            (by omega) e tail hsub
          omega

theorem parseDigitsAcc_append (a b : List Nat) (acc : Nat) :
    parseDigitsAcc (a ++ b) acc =
      match parseDigitsAcc a acc with
      | some m => parseDigitsAcc b m
      | none => none := by
  induction a generalizing acc with
  | nil => simp [parseDigitsAcc]
  | cons x rest ih =>
      simp only [List.cons_append, parseDigitsAcc]
      split
      · exact ih _
      · rfl

theorem parseDigitsAcc_natDigits : ∀ n acc : Nat,
    parseDigitsAcc ((natDigits n).map (· + 48)) acc =
      some (acc * 10 ^ (natDigits n).length + n) := by
  intro n
  induction n using Nat.strong_induction_on with
  | _ n ih =>
      intro acc
      rw [natDigits_eq]
      split
      · rename_i hlt
        simp only [List.map_cons, List.map_nil, parseDigitsAcc]
        rw [if_pos (by omega)]
        simp only [parseDigitsAcc, List.length_cons, List.length_nil]
        rw [pow_one]
        have harith : n + 48 - 48 = n := by omega
        rw [harith]
      · rename_i hge
        rw [List.map_append, parseDigitsAcc_append]
        rw [ih (n / 10) (Nat.div_lt_self (by omega) (by omega)) acc]
        simp only [List.map_cons, List.map_nil, parseDigitsAcc]
        rw [if_pos (by omega)]
        simp only [parseDigitsAcc, List.length_append, List.length_cons,
          List.length_nil]
        congr 1
        have hmod : n % 10 + 48 - 48 = n % 10 := by omega
        rw [hmod, pow_add, pow_one]
        generalize (10 : Nat) ^ (natDigits (n / 10)).length = K at *
        rw [show acc * (K * 10) = acc * K * 10 from by ring]
        generalize acc * K = M
        omega

theorem jsonParseInt_jsonDumpsNat (n : Nat) :
    jsonParseInt (jsonDumpsNat n) = some (n : Int) := by
  unfold jsonDumpsNat
  rcases hds : natDigits n with _ | ⟨d, rest⟩
  · exact absurd hds (natDigits_ne_nil n)
  · have hd10 : d < 10 := natDigits_lt n d (by rw [hds]; simp)
    have hne45 : ¬ d + 48 = 45 := by omega
    rcases Nat.eq_zero_or_pos n with hn0 | hnpos
    · subst hn0
      have h0 : natDigits 0 = [0] := rfl
      rw [h0] at hds
      injection hds with h1 h2
      subst h1
      subst h2
      decide
    · have hdne : d ≠ 0 := natDigits_head_ne_zero n (by omega) d rest hds
      have hparse := parseDigitsAcc_natDigits n 0
      rw [hds] at hparse
      simp only [Nat.zero_mul, Nat.zero_add] at hparse
      simp only [List.map_cons] at hparse ⊢
      simp only [jsonParseInt, if_neg (by omega : ¬ d + 48 = 45)]
      simp only [parseJsonNat, if_neg (by omega : ¬ d + 48 = 48)]
      rw [hparse]
      rfl

theorem jsonDumpsNat_lt (n : Nat) : ∀ b ∈ jsonDumpsNat n, b < 256 := by
  intro b hb
  unfold jsonDumpsNat at hb
  obtain ⟨d, hd, rfl⟩ := List.mem_map.mp hb
  have := natDigits_lt n d hd
  omega

/-! ## Round trip of the token codec -/

theorem charVals_b64encodeL {bs : List Nat} (h : ∀ b ∈ bs, b < 256) :
    charVals (b64encodeL bs) = some (encVals bs) :=
  charVals_map_valToChar _ (encVals_lt bs h)

theorem encVals_ne_nil {bs : List Nat} (h : bs ≠ []) : encVals bs ≠ [] := by
  intro hnil
  have := encVals_length bs
  rw [hnil] at this
  simp only [List.length_nil] at this
  have hlen : bs.length ≠ 0 := fun h0 => h (List.length_eq_zero.mp h0)
  split_ifs at this <;> omega

theorem jsonDumpsNat_ne_nil (n : Nat) : jsonDumpsNat n ≠ [] := by
  unfold jsonDumpsNat
  simp only [ne_eq, List.map_eq_nil_iff]
  exact natDigits_ne_nil n

theorem payloadChars_ne_nil (uid : Nat) : payloadChars uid ≠ [] := by
  unfold payloadChars b64encodeL
  simp only [ne_eq, List.map_eq_nil_iff]
  exact encVals_ne_nil (jsonDumpsNat_ne_nil uid)

theorem dot_not_mem_payloadChars (uid : Nat) : '.' ∉ payloadChars uid :=
  dot_not_mem_b64encodeL (jsonDumpsNat_lt uid)

theorem head?_ne_dot {p : List Char} (h : '.' ∉ p) : p.head? ≠ some '.' := by
  cases p with
  | nil => simp
  | cons c rest =>
      simp only [List.head?_cons, ne_eq, Option.some.injEq]
      intro hc
      exact h (by simp [hc])

theorem loadPayload_payloadChars (uid : Nat) :
    loadPayload (payloadChars uid) = .ok (uid : Int) := by
  unfold loadPayload
  rw [if_neg (head?_ne_dot (dot_not_mem_payloadChars uid))]
  unfold payloadChars
  rw [b64decodeL_b64encodeL _ (jsonDumpsNat_lt uid)]
  simp only [jsonParseInt_jsonDumpsNat]

theorem loadsL_dumpsL (mac : String → List Nat) (uid : Nat)
    (Hbyte : ∀ s : String, ∀ b ∈ mac s, b < 256) :
    loadsL mac (dumpsL mac uid) = .ok (uid : Int) := by
  unfold loadsL dumpsL
  rw [rsplitDot_append _ _ (dot_not_mem_b64encodeL (Hbyte _))]
  simp only
  rw [charVals_b64encodeL (Hbyte _)]
  simp only
  rw [if_neg (by simpa using encVals_length_mod (mac (payloadStr uid)))]
  rw [if_pos (by rw [decodeVals_encVals _ (Hbyte _)]; rfl)]
  exact loadPayload_payloadChars uid

theorem loads_create_session_cookie (mac : String → List Nat) (uid : Nat)
    (Hbyte : ∀ s : String, ∀ b ∈ mac s, b < 256) :
    loads mac (create_session_cookie mac uid) = .ok (uid : Int) :=
  loadsL_dumpsL mac uid Hbyte

theorem create_session_cookie_ne_empty (mac : String → List Nat) (uid : Nat) :
    create_session_cookie mac uid ≠ "" := by
  unfold create_session_cookie dumpsL
  intro h
  have hd := congrArg String.data h
  rcases hp : payloadChars uid with _ | ⟨c, rest⟩
  · exact payloadChars_ne_nil uid hp
  · rw [hp] at hd
    simp at hd

theorem get_user_id_roundtrip (mac : String → List Nat) (uid : Nat)
    (Hbyte : ∀ s : String, ∀ b ∈ mac s, b < 256) :
    get_user_id_from_cookie mac (some (create_session_cookie mac uid)) =
      .ok (some (uid : Int)) := by
  simp only [get_user_id_from_cookie]
  rw [if_neg (create_session_cookie_ne_empty mac uid)]
  rw [loads_create_session_cookie mac uid Hbyte]

/-! ## Lemmas about the history sort -/

theorem insertByDesc_perm (x : CalcR) :
    ∀ l : List CalcR, (insertByDesc x l).Perm (x :: l)
  | [] => List.Perm.refl _
  | y :: ys => by
      unfold insertByDesc
      split
      · exact List.Perm.refl _
      · exact ((insertByDesc_perm x ys).cons y).trans (List.Perm.swap x y ys)

theorem sortByCreatedDesc_perm : ∀ l : List CalcR, (sortByCreatedDesc l).Perm l
  | [] => List.Perm.refl _
  | x :: xs =>
      (insertByDesc_perm x (sortByCreatedDesc xs)).trans
        ((sortByCreatedDesc_perm xs).cons x)

theorem mem_sortByCreatedDesc {c : CalcR} {l : List CalcR} :
    c ∈ sortByCreatedDesc l ↔ c ∈ l :=
  (sortByCreatedDesc_perm l).mem_iff

theorem mem_insertByDesc {x z : CalcR} {l : List CalcR} :
    z ∈ insertByDesc x l ↔ z = x ∨ z ∈ l := by
  rw [(insertByDesc_perm x l).mem_iff]
  simp

theorem pairwise_newestFirst_insert {x : CalcR} :
    ∀ {l : List CalcR}, l.Pairwise newestFirst → (∀ y ∈ l, x.id < y.id) →
      (insertByDesc x l).Pairwise newestFirst := by
  intro l
  induction l with
  | nil =>
      intro _ _
      simp [insertByDesc]
  | cons y ys ih =>
      intro hp hid
      rw [List.pairwise_cons] at hp
      obtain ⟨hy, hys⟩ := hp
      unfold insertByDesc
      split
      · rename_i hle
        refine List.Pairwise.cons ?_ (List.Pairwise.cons hy hys)
        intro z hz
        rcases List.mem_cons.mp hz with rfl | hz'
        · rcases Nat.lt_or_ge z.created_at x.created_at with h | h
          · exact Or.inl h
          · exact Or.inr ⟨by omega, hid z (by simp)⟩
        · have hz_le : z.created_at ≤ y.created_at := by
            rcases hy z hz' with h | h
            · omega
            · omega
          rcases Nat.lt_or_ge z.created_at x.created_at with h | h
          · exact Or.inl h
          · exact Or.inr ⟨by omega, hid z (by simp [hz'])⟩
      · rename_i hgt
        refine List.Pairwise.cons ?_ (ih hys (fun z hz => hid z (by simp [hz])))
        intro z hz
        rcases mem_insertByDesc.mp hz with rfl | hz'
        · exact Or.inl (by omega)
        · exact hy z hz'

theorem pairwise_newestFirst_sort :
    ∀ {l : List CalcR}, l.Pairwise (fun a b => a.id < b.id) →
      (sortByCreatedDesc l).Pairwise newestFirst := by
  intro l
  induction l with
  | nil =>
      intro _
      simp [sortByCreatedDesc]
  | cons x xs ih =>
      intro h
      rw [List.pairwise_cons] at h
      obtain ⟨hx, hxs⟩ := h
      unfold sortByCreatedDesc
      exact pairwise_newestFirst_insert (ih hxs)
        (fun y hy => hx y (mem_sortByCreatedDesc.mp hy))

/-! ## Lemmas for the single-character-alteration analysis -/

theorem charVals_set : ∀ {l : List Char} {vs : List Nat} {c : Char} {v : Nat},
    charVals l = some vs → charVal c = some v → ∀ j : Nat,
    charVals (l.set j c) = some (vs.set j v)
  | [], vs, c, v => by
      intro hl _ j
      simp only [charVals, Option.some.injEq] at hl
      simp [← hl, charVals]
  | x :: xs, vs, c, v => by
      intro hl hc j
      simp only [charVals] at hl
      cases hx : charVal x with
      | none => rw [hx] at hl; simp at hl
      | some w =>
          rw [hx] at hl
          cases hxs : charVals xs with
          | none => rw [hxs] at hl; simp at hl
          | some ws =>
              rw [hxs] at hl
              simp only [Option.some.injEq] at hl
              subst hl
              cases j with
              | zero => simp [charVals, hc, hxs, List.set]
              | succ j' =>
                  simp only [List.set, charVals, hx,
                    charVals_set hxs hc j']

theorem charVals_none_of_mem : ∀ {l : List Char} {c : Char},
    charVal c = none → c ∈ l → charVals l = none
  | [], c => by simp
  | x :: xs, c => by
      intro hc hmem
      rcases List.mem_cons.mp hmem with rfl | hmem'
      · simp [charVals, hc]
      · simp only [charVals, charVals_none_of_mem hc hmem']
        cases charVal x <;> rfl

theorem decodeVals_length : ∀ vs : List Nat,
    8 * (decodeVals vs).length ≤ 6 * vs.length
  | [] => by simp [decodeVals]
  | [x] => by
      rw [show decodeVals [x] = [] from rfl]
      simp
  | [x, y] => by
      rw [show decodeVals [x, y] = [x * 4 + y / 16] from rfl]
      simp
  | [x, y, z] => by
      rw [show decodeVals [x, y, z] = [x * 4 + y / 16, (y % 16) * 16 + z / 4]
        from rfl]
      simp
  | x :: y :: z :: w :: rest => by
      have ih := decodeVals_length rest
      simp only [decodeVals, List.length_cons]
      omega

theorem decodeVals_set_iff :
    ∀ (vs : List Nat), vs.length % 4 = 3 → (∀ u ∈ vs, u < 64) →
      ∀ (j : Nat), ∀ hj : j < vs.length, ∀ v : Nat, v < 64 → v ≠ vs[j] →
      (decodeVals (vs.set j v) = decodeVals vs ↔
        (j = vs.length - 1 ∧ v / 4 = vs[j] / 4))
  | [], h, _ => by simp at h
  | [x], h, _ => by simp at h
  | [x, y], h, _ => by simp at h
  | [x, y, z], _, hlt => by
      intro j hj v hv hne
      have hx : x < 64 := hlt x (by simp)
      have hy : y < 64 := hlt y (by simp)
      have hz : z < 64 := hlt z (by simp)
      rcases j with _ | _ | _ | j'
      · have hne' : v ≠ x := hne
        show decodeVals [v, y, z] = decodeVals [x, y, z] ↔ (0 = 2 ∧ v / 4 = x / 4)
        simp only [decodeVals, List.cons.injEq, and_true, true_and, and_self]
        omega
      · have hne' : v ≠ y := hne
        show decodeVals [x, v, z] = decodeVals [x, y, z] ↔ (1 = 2 ∧ v / 4 = y / 4)
        simp only [decodeVals, List.cons.injEq, and_true, true_and, and_self]
        omega
      · have hne' : v ≠ z := hne
        show decodeVals [x, y, v] = decodeVals [x, y, z] ↔ (2 = 2 ∧ v / 4 = z / 4)
        simp only [decodeVals, List.cons.injEq, and_true, true_and, and_self]
        omega
      · have hj' : j' + 3 < 3 := hj
        omega
  | x :: y :: z :: w :: rest, h, hlt => by
      intro j hj v hv hne
      have hx : x < 64 := hlt x (by simp)
      have hy : y < 64 := hlt y (by simp)
      have hz : z < 64 := hlt z (by simp)
      have hw : w < 64 := hlt w (by simp)
      have hrest : rest.length % 4 = 3 := by
        simp only [List.length_cons] at h
        omega
      have hrge : 3 ≤ rest.length := by omega
      rcases j with _ | _ | _ | _ | j'
      · have hne' : v ≠ x := hne
        show decodeVals (v :: y :: z :: w :: rest) =
            decodeVals (x :: y :: z :: w :: rest) ↔
          (0 = rest.length + 3 ∧ v / 4 = x / 4)
        simp only [decodeVals, List.cons.injEq, and_true, true_and, and_self]
        omega
      · have hne' : v ≠ y := hne
        show decodeVals (x :: v :: z :: w :: rest) =
            decodeVals (x :: y :: z :: w :: rest) ↔
          (1 = rest.length + 3 ∧ v / 4 = y / 4)
        simp only [decodeVals, List.cons.injEq, and_true, true_and, and_self]
        omega
      · have hne' : v ≠ z := hne
        show decodeVals (x :: y :: v :: w :: rest) =
            decodeVals (x :: y :: z :: w :: rest) ↔
          (2 = rest.length + 3 ∧ v / 4 = z / 4)
        simp only [decodeVals, List.cons.injEq, and_true, true_and, and_self]
        omega
      · have hne' : v ≠ w := hne
        show decodeVals (x :: y :: z :: v :: rest) =
            decodeVals (x :: y :: z :: w :: rest) ↔
          (3 = rest.length + 3 ∧ v / 4 = w / 4)
        simp only [decodeVals, List.cons.injEq, and_true, true_and, and_self]
        omega
      · have hj' : j' < rest.length := by
          have : j' + 4 < rest.length + 4 := hj
          omega
        have hne' : v ≠ rest[j'] := hne
        have ih := decodeVals_set_iff rest hrest
          (fun u hu => hlt u (by simp [hu])) j' hj' v hv hne'
        show decodeVals (x :: y :: z :: w :: rest.set j' v) =
            decodeVals (x :: y :: z :: w :: rest) ↔
          (j' + 4 = rest.length + 3 ∧ v / 4 = rest[j'] / 4)
        simp only [decodeVals, List.cons.injEq, true_and]
        rw [ih]
        constructor
        · rintro ⟨h1, h2⟩
          exact ⟨by omega, h2⟩
        · rintro ⟨h1, h2⟩
          exact ⟨by omega, h2⟩

theorem set_ne_self {α : Type} {l : List α} {i : Nat} (hi : i < l.length)
    {c : α} (hc : c ≠ l[i]) : l.set i c ≠ l := by
  intro h
  apply hc
  have h1 : (l.set i c)[i]? = some c := by
    rw [List.getElem?_eq_getElem (by rw [List.length_set]; exact hi)]
    simp
  rw [h] at h1
  rw [List.getElem?_eq_getElem hi] at h1
  exact (Option.some.inj h1).symm

theorem b64encodeL_length20 {bs : List Nat} (h : bs.length = 20) :
    (b64encodeL bs).length = 27 := by
  unfold b64encodeL
  rw [List.length_map, encVals_length, h]
  decide

theorem ne_of_length_ne {α : Type} {l₁ l₂ : List α}
    (h : l₁.length ≠ l₂.length) : l₁ ≠ l₂ :=
  fun he => h (congrArg List.length he)

theorem loadsL_wrong_payload (mac : String → List Nat) (uid : Nat)
    (Hbyte : ∀ s : String, ∀ b ∈ mac s, b < 256)
    (Hcoll : ∀ s : String, s ≠ payloadStr uid → mac s ≠ mac (payloadStr uid))
    {p' : List Char} (hne : p' ≠ payloadChars uid) :
    loadsL mac (p' ++ '.' :: b64encodeL (mac (payloadStr uid))) =
      .error .badSignature := by
  unfold loadsL
  rw [rsplitDot_append _ _ (dot_not_mem_b64encodeL (Hbyte _))]
  simp only
  rw [charVals_b64encodeL (Hbyte _)]
  simp only
  rw [if_neg (by simpa using encVals_length_mod (mac (payloadStr uid)))]
  have hcond : ¬(decodeVals (encVals (mac (payloadStr uid))) =
      mac (String.mk p')) := by
    rw [decodeVals_encVals _ (Hbyte _)]
    intro hEq
    exact Hcoll (String.mk p') (fun hs => hne (congrArg String.data hs)) hEq.symm
  rw [if_neg hcond]

theorem mem_set_self {α : Type} : ∀ {l : List α} {j : Nat}, j < l.length →
    ∀ c : α, c ∈ l.set j c
  | [], j, h => by simp at h
  | x :: xs, 0, _ => fun c => by simp [List.set]
  | x :: xs, j + 1, h => fun c => by
      simp only [List.set, List.mem_cons]
      exact Or.inr (mem_set_self (by simpa using h) c)

theorem loadsL_no_dot (mac : String → List Nat) {tok : List Char}
    (h : '.' ∉ tok) : loadsL mac tok = .error .badSignature := by
  unfold loadsL
  rw [rsplitDot_of_no_dot _ h]

theorem loadsL_dot_in_sig (mac : String → List Nat) (uid : Nat)
    (Hbyte : ∀ s : String, ∀ b ∈ mac s, b < 256)
    (Hlen : ∀ s : String, (mac s).length = 20)
    {j : Nat} (hj : j < 27) :
    loadsL mac (payloadChars uid ++
        '.' :: (b64encodeL (mac (payloadStr uid))).set j '.') =
      .error .badSignature := by
  have hSdot : '.' ∉ b64encodeL (mac (payloadStr uid)) :=
    dot_not_mem_b64encodeL (Hbyte _)
  have hSlen : (b64encodeL (mac (payloadStr uid))).length = 27 :=
    b64encodeL_length20 (Hlen _)
  have hset : (b64encodeL (mac (payloadStr uid))).set j '.' =
      (b64encodeL (mac (payloadStr uid))).take j ++
        '.' :: (b64encodeL (mac (payloadStr uid))).drop (j + 1) :=
    List.set_eq_take_cons_drop '.' (by omega)
  have hrestr : payloadChars uid ++
      '.' :: ((b64encodeL (mac (payloadStr uid))).take j ++
        '.' :: (b64encodeL (mac (payloadStr uid))).drop (j + 1)) =
      (payloadChars uid ++
        '.' :: (b64encodeL (mac (payloadStr uid))).take j) ++
        '.' :: (b64encodeL (mac (payloadStr uid))).drop (j + 1) := by
    simp
  have hDdot : '.' ∉ (b64encodeL (mac (payloadStr uid))).drop (j + 1) :=
    fun hm => hSdot (List.mem_of_mem_drop hm)
  rw [hset, hrestr]
  unfold loadsL
  rw [rsplitDot_append _ _ hDdot]
  simp only
  cases hB : charVals ((b64encodeL (mac (payloadStr uid))).drop (j + 1)) with
  | none => rfl
  | some vsB =>
      simp only
      by_cases hlen1 : vsB.length % 4 = 1
      · rw [if_pos hlen1]
      · rw [if_neg hlen1]
        have hlenB : vsB.length = 26 - j := by
          rw [charVals_length hB, List.length_drop, hSlen]
          omega
        have hdlen := decodeVals_length vsB
        have hmaclen := Hlen (String.mk (payloadChars uid ++
          '.' :: (b64encodeL (mac (payloadStr uid))).take j))
        rw [if_neg (ne_of_length_ne (by rw [hmaclen]; omega))]

theorem loadsL_bad_sig_char (mac : String → List Nat) (uid : Nat)
    (Hbyte : ∀ s : String, ∀ b ∈ mac s, b < 256)
    (Hlen : ∀ s : String, (mac s).length = 20)
    {j : Nat} (hj : j < 27) {c : Char} (hcnone : charVal c = none)
    (hcdot : c ≠ '.') :
    loadsL mac (payloadChars uid ++
        '.' :: (b64encodeL (mac (payloadStr uid))).set j c) =
      .error .badSignature := by
  have hSdot : '.' ∉ b64encodeL (mac (payloadStr uid)) :=
    dot_not_mem_b64encodeL (Hbyte _)
  have hSlen : (b64encodeL (mac (payloadStr uid))).length = 27 :=
    b64encodeL_length20 (Hlen _)
  have hdot' : '.' ∉ (b64encodeL (mac (payloadStr uid))).set j c := by
    intro hm
    rcases List.mem_or_eq_of_mem_set hm with hm' | hm'
    · exact hSdot hm'
    · exact hcdot hm'.symm
  unfold loadsL
  rw [rsplitDot_append _ _ hdot']
  simp only
  rw [charVals_none_of_mem hcnone (mem_set_self (by rw [hSlen]; omega) c)]

theorem loadsL_alpha_sig_char (mac : String → List Nat) (uid : Nat)
    (Hbyte : ∀ s : String, ∀ b ∈ mac s, b < 256)
    (Hlen : ∀ s : String, (mac s).length = 20)
    {j : Nat} (hj : j < 27) {c : Char} {v : Nat} (hcv : charVal c = some v)
    (hnev : v ≠ (encVals (mac (payloadStr uid))).getD j 0) :
    loadsL mac (payloadChars uid ++
        '.' :: (b64encodeL (mac (payloadStr uid))).set j c) =
      if j = 26 ∧ v / 4 = (encVals (mac (payloadStr uid))).getD 26 0 / 4
      then .ok (uid : Int) else .error .badSignature := by
  have hSdot : '.' ∉ b64encodeL (mac (payloadStr uid)) :=
    dot_not_mem_b64encodeL (Hbyte _)
  have hvslen : (encVals (mac (payloadStr uid))).length = 27 := by
    rw [encVals_length, Hlen]
    decide
  have hcdot : c ≠ '.' := by
    intro hcd
    rw [hcd] at hcv
    rw [show charVal '.' = none from by decide] at hcv
    exact Option.noConfusion hcv
  have hdot' : '.' ∉ (b64encodeL (mac (payloadStr uid))).set j c := by
    intro hm
    rcases List.mem_or_eq_of_mem_set hm with hm' | hm'
    · exact hSdot hm'
    · exact hcdot hm'.symm
  unfold loadsL
  rw [rsplitDot_append _ _ hdot']
  simp only
  rw [charVals_set (charVals_b64encodeL (Hbyte _)) hcv j]
  simp only
  rw [if_neg (by rw [List.length_set, hvslen]; decide)]
  have hiff := decodeVals_set_iff (encVals (mac (payloadStr uid)))
    (by rw [hvslen]) (encVals_lt _ (Hbyte _)) j (by omega) v
    (charVal_lt hcv)
    (by rwa [List.getD_eq_getElem _ 0 (by omega)] at hnev)
  by_cases hE : j = 26 ∧ v / 4 = (encVals (mac (payloadStr uid))).getD 26 0 / 4
  · obtain ⟨hj26, hslack⟩ := hE
    have hdec : decodeVals ((encVals (mac (payloadStr uid))).set j v) =
        decodeVals (encVals (mac (payloadStr uid))) := by
      rw [hiff]
      refine ⟨by omega, ?_⟩
      rw [← List.getD_eq_getElem _ 0 (by omega), hj26]
      exact hslack
    have hcondT : decodeVals ((encVals (mac (payloadStr uid))).set j v) =
        mac (String.mk (payloadChars uid)) := by
      rw [hdec, decodeVals_encVals _ (Hbyte _)]
      rfl
    rw [if_pos hcondT, if_pos ⟨hj26, hslack⟩]
    exact loadPayload_payloadChars uid
  · have hdec : ¬(decodeVals ((encVals (mac (payloadStr uid))).set j v) =
        decodeVals (encVals (mac (payloadStr uid)))) := by
      rw [hiff]
      rintro ⟨hj26, hslack⟩
      have hj26' : j = 26 := by omega
      refine hE ⟨hj26', ?_⟩
      rw [← List.getD_eq_getElem _ 0 (by omega)] at hslack
      rw [hj26'] at hslack
      exact hslack
    have hcondF : ¬(decodeVals ((encVals (mac (payloadStr uid))).set j v) =
        mac (String.mk (payloadChars uid))) := by
      intro hEq
      apply hdec
      rw [hEq]
      exact (decodeVals_encVals _ (Hbyte _)).symm
    rw [if_neg hcondF, if_neg hE]

theorem b64encodeL_getD {bs : List Nat} {j : Nat}
    (h : j < (encVals bs).length) :
    (b64encodeL bs).getD j 'A' = valToChar ((encVals bs).getD j 0) := by
  unfold b64encodeL
  rw [List.getD_eq_getElem _ _ (by rw [List.length_map]; exact h),
    List.getD_eq_getElem _ _ h, List.getElem_map]

theorem encVals_getD_lt {bs : List Nat} (h : ∀ b ∈ bs, b < 256) {j : Nat}
    (hj : j < (encVals bs).length) : (encVals bs).getD j 0 < 64 := by
  rw [List.getD_eq_getElem _ _ hj]
  exact encVals_lt bs h _ (List.getElem_mem hj)

theorem dumpsL_getElem (mac : String → List Nat) (uid : Nat) (i : Nat)
    (hi : i < (dumpsL mac uid).length) :
    (dumpsL mac uid)[i] =
      if i < (payloadChars uid).length then (payloadChars uid).getD i 'A'
      else if i = (payloadChars uid).length then '.'
      else (b64encodeL (mac (payloadStr uid))).getD
        (i - (payloadChars uid).length - 1) 'A' := by
  show (payloadChars uid ++ '.' :: b64encodeL (mac (payloadStr uid)))[i] = _
  split_ifs with h1 h2
  · rw [List.getElem_append_left h1]
    exact (List.getD_eq_getElem _ _ h1).symm
  · subst h2
    rw [List.getElem_append_right (Nat.le_refl _)]
    simp
  · have hilen : i < (payloadChars uid ++
        '.' :: b64encodeL (mac (payloadStr uid))).length := hi
    rw [List.getElem_append_right (by omega)]
    rw [← List.getD_eq_getElem _ 'A' (by
      simp only [List.length_append, List.length_cons] at hilen
      simp only [List.length_cons]
      omega)]
    obtain ⟨k, hk⟩ : ∃ k, i - (payloadChars uid).length = k + 1 :=
      ⟨i - (payloadChars uid).length - 1, by omega⟩
    have hk2 : i - (payloadChars uid).length - 1 = k := by omega
    rw [hk2, hk, List.getD_cons_succ]

theorem dumpsL_set (mac : String → List Nat) (uid : Nat) (i : Nat) (c : Char) :
    (dumpsL mac uid).set i c =
      if i < (payloadChars uid).length then
        (payloadChars uid).set i c ++ '.' :: b64encodeL (mac (payloadStr uid))
      else if i = (payloadChars uid).length then
        payloadChars uid ++ c :: b64encodeL (mac (payloadStr uid))
      else
        payloadChars uid ++ '.' :: (b64encodeL (mac (payloadStr uid))).set
          (i - (payloadChars uid).length - 1) c := by
  show (payloadChars uid ++ '.' :: b64encodeL (mac (payloadStr uid))).set i c = _
  rw [List.set_append]
  split_ifs with h1 h2
  · rfl
  · subst h2
    rw [Nat.sub_self]
    rfl
  · obtain ⟨k, hk⟩ : ∃ k, i - (payloadChars uid).length = k + 1 :=
      ⟨i - (payloadChars uid).length - 1, by omega⟩
    have hk2 : i - (payloadChars uid).length - 1 = k := by omega
    rw [hk2, hk]
    rfl

/-! ## Claim theorems -/

/-- C1: for every assignment of numeric values to the five asset fields and
the five liability fields, absent fields taken as 0, the `calculate` route
produces `total_assets` equal to the sum of the five asset values,
`total_liabilities` equal to the sum of the five liability values, and
`net_worth = total_assets - total_liabilities`, exactly, including negative
and all-zero values. -/
theorem C1_calculate_totals (mac : String → List Nat) (db : DB) (now : Nat)
    (cash investments property_value vehicles other_assets
     mortgage student_loans credit_card car_loans other_liabilities : Option ℚ)
    (session : Option String) (r : CalcResponse) (db' : DB)
    (h : calculate mac db now cash investments property_value vehicles other_assets
        mortgage student_loans credit_card car_loans other_liabilities session =
        .ok (r, db')) :
    r.total_assets = cash.getD 0 + investments.getD 0 + property_value.getD 0 +
        vehicles.getD 0 + other_assets.getD 0 ∧
    r.total_liabilities = mortgage.getD 0 + student_loans.getD 0 +
        credit_card.getD 0 + car_loans.getD 0 + other_liabilities.getD 0 ∧
    r.net_worth = r.total_assets - r.total_liabilities := by
  unfold calculate at h
  cases hg : get_current_user mac db session with
  | error e => rw [hg] at h; simp at h
  | ok user =>
      rw [hg] at h
      simp only [Except.ok.injEq, Prod.mk.injEq] at h
      obtain ⟨hr, -⟩ := h
      subst hr
      exact ⟨rfl, rfl, rfl⟩

/-- Witness for C1 at a concrete input: a calculation submitted anonymously
on the empty database. -/
theorem C1_calculate_totals_witness :
    calculate macConst dbEmpty 0 (some 3) none (some (-2)) none none
        (some 1) none none none none none = .ok (calcResp1, dbEmpty) ∧
    (calcResp1.total_assets = (some (3 : ℚ)).getD 0 + (none : Option ℚ).getD 0 +
        (some (-2 : ℚ)).getD 0 + (none : Option ℚ).getD 0 +
        (none : Option ℚ).getD 0 ∧
      calcResp1.total_liabilities = (some (1 : ℚ)).getD 0 +
        (none : Option ℚ).getD 0 + (none : Option ℚ).getD 0 +
        (none : Option ℚ).getD 0 + (none : Option ℚ).getD 0 ∧
      calcResp1.net_worth = calcResp1.total_assets - calcResp1.total_liabilities) ∧
    calcResp1.total_assets = 1 ∧ calcResp1.total_liabilities = 1 ∧
    calcResp1.net_worth = 0 :=
  ⟨rfl,
    C1_calculate_totals macConst dbEmpty 0 (some 3) none (some (-2)) none none
      (some 1) none none none none none calcResp1 dbEmpty rfl,
    by norm_num [calcResp1], by norm_num [calcResp1], by norm_num [calcResp1]⟩

/-- C9: a calculate submission resolved as anonymous computes and returns the
totals, leaves the calculation store entirely unchanged, and reports the
result as not saved. -/
theorem C9_anonymous_calculation_not_persisted (mac : String → List Nat) (db : DB)
    (now : Nat)
    (cash investments property_value vehicles other_assets
     mortgage student_loans credit_card car_loans other_liabilities : Option ℚ)
    (session : Option String)
    (h : get_current_user mac db session = .ok none) :
    ∃ r : CalcResponse,
      calculate mac db now cash investments property_value vehicles other_assets
          mortgage student_loans credit_card car_loans other_liabilities session =
        .ok (r, db) ∧
      r.saved = false ∧ r.user = none ∧ r.show_result = true ∧
      r.total_assets = cash.getD 0 + investments.getD 0 + property_value.getD 0 +
        vehicles.getD 0 + other_assets.getD 0 ∧
      r.total_liabilities = mortgage.getD 0 + student_loans.getD 0 +
        credit_card.getD 0 + car_loans.getD 0 + other_liabilities.getD 0 ∧
      r.net_worth = r.total_assets - r.total_liabilities := by
  unfold calculate
  rw [h]
  refine ⟨_, rfl, ?_, ?_, ?_, ?_, ?_, ?_⟩ <;> rfl

/-- Witness for C9: an anonymous submission (no cookie) on a database that
does contain rows. -/
theorem C9_anonymous_calculation_not_persisted_witness :
    get_current_user macConst dbHist none = .ok none ∧
    ∃ r : CalcResponse,
      calculate macConst dbHist 99 (some 3) none none none none none none none
          none none none =
        .ok (r, dbHist) ∧
      r.saved = false ∧ r.user = none ∧ r.show_result = true ∧
      r.total_assets = (some (3 : ℚ)).getD 0 + (none : Option ℚ).getD 0 +
        (none : Option ℚ).getD 0 + (none : Option ℚ).getD 0 +
        (none : Option ℚ).getD 0 ∧
      r.total_liabilities = (none : Option ℚ).getD 0 + (none : Option ℚ).getD 0 +
        (none : Option ℚ).getD 0 + (none : Option ℚ).getD 0 +
        (none : Option ℚ).getD 0 ∧
      r.net_worth = r.total_assets - r.total_liabilities :=
  ⟨rfl, C9_anonymous_calculation_not_persisted macConst dbHist 99 (some 3) none
    none none none none none none none none none rfl⟩

/-- C10: token issuance is deterministic — `create_session_cookie` is a pure
function of the user id (and the server's signing secret, embodied by `mac`):
two calls with the same id yield the identical string, which is moreover the
fixed expression payload ++ "." ++ base64url(mac payload), with no random
component (the source delegates to `URLSafeSerializer.dumps`, which has no
nonce or timestamp). -/
theorem C10_issuance_deterministic (mac : String → List Nat) (u1 u2 : Nat)
    (h : u1 = u2) :
    create_session_cookie mac u1 = create_session_cookie mac u2 ∧
    create_session_cookie mac u1 =
      String.mk (payloadChars u1 ++ '.' :: b64encodeL (mac (payloadStr u1))) := by
  subst h
  exact ⟨rfl, rfl⟩

/-- Witness for C10 at user id 5. -/
theorem C10_issuance_deterministic_witness :
    create_session_cookie macConst 5 = create_session_cookie macConst 5 ∧
    create_session_cookie macConst 5 =
      String.mk (payloadChars 5 ++ '.' :: b64encodeL (macConst (payloadStr 5))) :=
  C10_issuance_deterministic macConst 5 5 rfl

/-- C5: every failing login — unknown email, or known email with a password
that does not verify — returns one and the same undifferentiated response,
the re-rendered form with the message "Invalid email or password." and the
echoed email, revealing nothing about whether the email exists. -/
theorem C5_login_no_account_enumeration (mac : String → List Nat)
    (checkpw : String → String → Bool) (db : DB) (email password : String)
    (h : db.users.find? (fun u => u.email = email) = none ∨
      ∃ u, db.users.find? (fun u => u.email = email) = some u ∧
        checkpw password u.password_hash = false) :
    login mac checkpw db email password =
      .formError "Invalid email or password." email := by
  unfold login
  rcases h with h | ⟨u, hu, hc⟩
  · rw [h]
  · rw [hu]
    simp only [hc]
    rfl

/-- Witness for C5: the two spec scenarios — wrong password for the existing
`a@x.com`, and any password for the absent `nobody@x.com` — both handled by
the theorem, yielding the identical outcome. -/
theorem C5_login_no_account_enumeration_witness :
    (db1.users.find? (fun u => u.email = "a@x.com") = some user1 ∧
      checkpwNever "wrong" user1.password_hash = false) ∧
    (db1.users.find? (fun u => u.email = "nobody@x.com") = none) ∧
    login macConst checkpwNever db1 "a@x.com" "wrong" =
      .formError "Invalid email or password." "a@x.com" ∧
    login macConst checkpwNever db1 "nobody@x.com" "anything" =
      .formError "Invalid email or password." "nobody@x.com" :=
  ⟨⟨by decide, by decide⟩, by decide,
    C5_login_no_account_enumeration macConst checkpwNever db1 "a@x.com" "wrong"
      (Or.inr ⟨user1, by decide, by decide⟩),
    C5_login_no_account_enumeration macConst checkpwNever db1 "nobody@x.com"
      "anything" (Or.inl (by decide))⟩

/-- C3 records a code bug: the claim (and the docstring of
`get_user_id_from_cookie`) say verification never raises on any input string,
but a token whose signature is valid while its payload does not decode raises
`BadPayload`, which the `except BadSignature` handler does not catch.  This
theorem evaluates the code at such a failing input: under the constant MAC,
the token `"." ++ base64url(mac(""))` (empty payload, correctly signed)
makes `get_user_id_from_cookie` escape with the uncaught exception. -/
theorem C3_bad_payload_escapes :
    get_user_id_from_cookie macConst (some ".AAAAAAAAAAAAAAAAAAAAAAAAAAA") =
      .error () ∧
    String.mk ('.' :: b64encodeL (macConst "")) =
      ".AAAAAAAAAAAAAAAAAAAAAAAAAAA" := by
  constructor
  · rfl
  · rfl

/-- C4: the `history` route either redirects anonymous identities to the
login view or renders exactly the resolved user's own query — for every
cookie input, whenever the response carries calculations they all have the
resolved user's id as owner.  (The third possibility is the uncaught
`BadPayload` escape of the cookie decoder, in which case no page is
rendered at all.) -/
theorem C4_history_owner_only (mac : String → List Nat) (db : DB)
    (session : Option String) :
    (get_current_user mac db session = .error () ∧
      history mac db session = .error ()) ∨
    (get_current_user mac db session = .ok none ∧
      history mac db session = .ok .redirectLogin) ∨
    (∃ u : UserR, get_current_user mac db session = .ok (some u) ∧
      history mac db session = .ok (.page u (historyQuery db u.id)) ∧
      ∀ c ∈ historyQuery db u.id, c.user_id = u.id) := by
  cases hg : get_current_user mac db session with
  | error e =>
      exact Or.inl ⟨rfl, by unfold history; rw [hg]⟩
  | ok user =>
      cases user with
      | none => exact Or.inr (Or.inl ⟨rfl, by unfold history; rw [hg]⟩)
      | some u =>
          refine Or.inr (Or.inr ⟨u, rfl, by unfold history; rw [hg], ?_⟩)
          intro c hc
          have hmem := mem_sortByCreatedDesc.mp hc
          rw [List.mem_filter] at hmem
          simpa using hmem.2

/-- C7: a validly signed token for a user id with no matching `User` row
resolves to anonymous; and whenever it resolves to a user at all, that user
is a row of the table whose id is exactly the token's id — never a different
user. -/
theorem C7_stale_token_resolves_anonymous (mac : String → List Nat) (db : DB)
    (uid : Nat) (Hbyte : ∀ s : String, ∀ b ∈ mac s, b < 256) :
    get_current_user mac db (some (create_session_cookie mac uid)) =
      .ok (db.users.find? (fun u => (u.id : Int) = (uid : Int))) ∧
    ((∀ u ∈ db.users, u.id ≠ uid) →
      get_current_user mac db (some (create_session_cookie mac uid)) = .ok none) ∧
    (∀ u : UserR, get_current_user mac db (some (create_session_cookie mac uid)) =
        .ok (some u) → u ∈ db.users ∧ u.id = uid) := by
  have h1 : get_current_user mac db (some (create_session_cookie mac uid)) =
      .ok (db.users.find? (fun u => (u.id : Int) = (uid : Int))) := by
    unfold get_current_user
    rw [get_user_id_roundtrip mac uid Hbyte]
  refine ⟨h1, ?_, ?_⟩
  · intro habs
    have hfind : db.users.find? (fun u => (u.id : Int) = (uid : Int)) = none := by
      rw [List.find?_eq_none]
      intro x hx
      simp only [decide_eq_true_eq, Nat.cast_inj]
      exact habs x hx
    rw [h1, hfind]
  · intro u hu
    rw [h1] at hu
    simp only [Except.ok.injEq] at hu
    have hmem := List.mem_of_find?_eq_some hu
    have hpred := List.find?_some hu
    simp only [decide_eq_true_eq, Nat.cast_inj] at hpred
    exact ⟨hmem, hpred⟩

/-- Witness for C7: user id 2 has no row in `db1` (which contains only user
id 1), and the corresponding validly signed cookie resolves to anonymous. -/
theorem C7_stale_token_resolves_anonymous_witness :
    (get_current_user macConst db1 (some (create_session_cookie macConst 2)) =
      .ok (db1.users.find? (fun u => (u.id : Int) = ((2 : Nat) : Int))) ∧
    ((∀ u ∈ db1.users, u.id ≠ 2) →
      get_current_user macConst db1 (some (create_session_cookie macConst 2)) =
        .ok none) ∧
    (∀ u : UserR,
      get_current_user macConst db1 (some (create_session_cookie macConst 2)) =
        .ok (some u) → u ∈ db1.users ∧ u.id = 2)) ∧
    get_current_user macConst db1 (some (create_session_cookie macConst 2)) =
      .ok none :=
  ⟨C7_stale_token_resolves_anonymous macConst db1 2
      (fun _ b hb => by
        simp only [macConst, List.mem_replicate] at hb
        omega),
    (C7_stale_token_resolves_anonymous macConst db1 2
      (fun _ b hb => by
        simp only [macConst, List.mem_replicate] at hb
        omega)).2.1 (by decide)⟩

/-- C8: for every user id, the history query returns exactly the
calculations whose owner is that user (a permutation of the filtered table,
with membership characterized), ordered by creation timestamp descending
with ties broken stably by insertion order (here: by the autoincrement
primary key, which increases along the table), and the empty list — never an
error — when the user has no calculations.  The hypothesis is the
autoincrement invariant of the `calculations` table. -/
theorem C8_history_newest_first (db : DB) (uid : Nat)
    (hids : db.calcs.Pairwise (fun a b => a.id < b.id)) :
    (historyQuery db uid).Perm (db.calcs.filter (fun c => c.user_id = uid)) ∧
    (∀ c : CalcR, c ∈ historyQuery db uid ↔ c ∈ db.calcs ∧ c.user_id = uid) ∧
    (historyQuery db uid).Pairwise newestFirst ∧
    ((∀ c ∈ db.calcs, c.user_id ≠ uid) → historyQuery db uid = []) := by
  refine ⟨sortByCreatedDesc_perm _, ?_, ?_, ?_⟩
  · intro c
    rw [historyQuery, mem_sortByCreatedDesc, List.mem_filter]
    simp
  · exact pairwise_newestFirst_sort (hids.filter _)
  · intro hnone
    have hfil : db.calcs.filter (fun c => c.user_id = uid) = [] := by
      rw [List.filter_eq_nil_iff]
      intro a ha
      simpa using hnone a ha
    rw [historyQuery, hfil]
    rfl

/-- Witness for C8 on `dbHist` (two calculations for user 1, at times
10 and 20, inserted in that order): the query returns them newest first,
and user 2 with no calculations gets the empty list. -/
theorem C8_history_newest_first_witness :
    ((historyQuery dbHist 1).Perm
        (dbHist.calcs.filter (fun c => c.user_id = 1)) ∧
      (∀ c : CalcR, c ∈ historyQuery dbHist 1 ↔
        c ∈ dbHist.calcs ∧ c.user_id = 1) ∧
      (historyQuery dbHist 1).Pairwise newestFirst ∧
      ((∀ c ∈ dbHist.calcs, c.user_id ≠ 1) → historyQuery dbHist 1 = [])) ∧
    historyQuery dbHist 1 = [calcB, calcA] ∧
    historyQuery dbHist 2 = [] :=
  ⟨C8_history_newest_first dbHist 1 (by decide), by decide, by decide⟩

/-- C6 as stated is refuted: it asserts that a duplicate detected only at
commit time (by the storage layer's uniqueness constraint, after the
application-level check passed against an earlier table state) is surfaced
as the "email already exists" validation error.  The route wraps
`db.commit()` in no handler, so the constraint violation propagates as a
generic request fault instead: here, a concrete race in which the check ran
against `dbEmpty` while a concurrent signup had already inserted `a@x.com`
by commit time. -/
theorem C6_commit_time_duplicate_counterexample :
    ¬ (∀ (dbCheck dbCommit : DB) (mac : String → List Nat)
        (hashpw : String → String) (now : Nat)
        (name email password confirm_password : String),
        password = confirm_password → ¬ password.length < 6 →
        (∃ u ∈ dbCommit.users, u.email = email) →
        ∃ db' : DB,
          signupRacing mac hashpw dbCheck dbCommit now name email password
              confirm_password =
            .ok (.formError "An account with this email already exists."
              name email, db') ∧
          db'.users = dbCommit.users) := by
  intro h
  obtain ⟨db', heq, -⟩ := h dbEmpty db1 macConst hashpw0 0 "B" "a@x.com"
    "secret1" "secret1" rfl (by decide) ⟨user1, by decide, by decide⟩
  have hrun : signupRacing macConst hashpw0 dbEmpty db1 0 "B" "a@x.com"
      "secret1" "secret1" = .error () := by decide
  rw [hrun] at heq
  exact absurd heq (by simp)

/-- C6 amended: with matching passwords of sufficient length, a signup whose
application-level check sees the duplicate email fails with the
"email already exists" validation error and leaves the store unchanged;
but a duplicate that appears only between the check and the commit makes the
storage constraint reject the commit and the request escapes as a generic
fault (`.error ()`), not as the validation error. -/
theorem C6_duplicate_email_signup (mac : String → List Nat)
    (hashpw : String → String) (now : Nat)
    (name email password confirm_password : String)
    (hpw : password = confirm_password) (hlen : ¬ password.length < 6) :
    (∀ db : DB, (∃ u ∈ db.users, u.email = email) →
      signup mac hashpw db now name email password confirm_password =
        .ok (.formError "An account with this email already exists." name email,
          db)) ∧
    (∀ dbCheck dbCommit : DB,
      (∀ u ∈ dbCheck.users, u.email ≠ email) →
      (∃ u ∈ dbCommit.users, u.email = email) →
      signupRacing mac hashpw dbCheck dbCommit now name email password
          confirm_password = .error ()) := by
  constructor
  · intro db ⟨u, hu, hmail⟩
    unfold signup signupRacing
    rw [if_neg (by simp [hpw]), if_neg hlen,
      if_pos (List.find?_isSome.mpr ⟨u, hu, by simp [hmail]⟩)]
  · intro dbCheck dbCommit habsent ⟨w, hw, hmail⟩
    unfold signupRacing
    have hnone : dbCheck.users.find? (fun u => u.email = email) = none := by
      rw [List.find?_eq_none]
      intro x hx
      simpa using habsent x hx
    rw [if_neg (by simp [hpw]), if_neg hlen, if_neg (by simp [hnone])]
    unfold commitUser
    have hany : (dbCommit.users.any fun v => v.email = email) = true :=
      List.any_eq_true.mpr ⟨w, hw, by simp [hmail]⟩
    simp [hany]

/-- Witness for C6 (amended): signing up `a@x.com` again on `db1` re-renders
the form with the duplicate-email error and leaves the table unchanged,
while the racing variant of the same signup escapes as a fault. -/
theorem C6_duplicate_email_signup_witness :
    ((∀ db : DB, (∃ u ∈ db.users, u.email = "a@x.com") →
      signup macConst hashpw0 db 0 "B" "a@x.com" "secret1" "secret1" =
        .ok (.formError "An account with this email already exists." "B"
          "a@x.com", db)) ∧
    (∀ dbCheck dbCommit : DB,
      (∀ u ∈ dbCheck.users, u.email ≠ "a@x.com") →
      (∃ u ∈ dbCommit.users, u.email = "a@x.com") →
      signupRacing macConst hashpw0 dbCheck dbCommit 0 "B" "a@x.com" "secret1"
          "secret1" = .error ())) ∧
    signup macConst hashpw0 db1 0 "B" "a@x.com" "secret1" "secret1" =
      .ok (.formError "An account with this email already exists." "B"
        "a@x.com", db1) ∧
    signupRacing macConst hashpw0 dbEmpty db1 0 "B" "a@x.com" "secret1"
        "secret1" = .error () :=
  ⟨C6_duplicate_email_signup macConst hashpw0 0 "B" "a@x.com" "secret1"
      "secret1" rfl (by decide),
    by decide, by decide⟩

/-- C2 amended: issuing a token for `U` then verifying it returns `U`; and
altering any single character of the token invalidates it (`BadSignature`,
so verification yields the invalid outcome), EXCEPT when the altered
position is the token's final character (the last character of the
signature) and the replacement shares its four significant high bits — the
base64 encoding of the 20-byte HMAC leaves two excess bits in the final
character which Python's decoder discards, so those three substitutions
leave the token verifying to the same user id.  The MAC hypotheses are the
idealized properties of HMAC-SHA1: byte output, fixed 20-byte length, and no
collision against the issued payload. -/
theorem C2_token_roundtrip_and_single_flip (mac : String → List Nat)
    (uid : Nat) (i : Nat) (c : Char)
    (Hbyte : ∀ s : String, ∀ b ∈ mac s, b < 256)
    (Hlen : ∀ s : String, (mac s).length = 20)
    (Hcoll : ∀ s : String, s ≠ payloadStr uid → mac s ≠ mac (payloadStr uid))
    (hi : i < (dumpsL mac uid).length)
    (hc : c ≠ (dumpsL mac uid)[i]) :
    loads mac (create_session_cookie mac uid) = .ok (uid : Int) ∧
    (i = (dumpsL mac uid).length - 1 ∧ slackEquiv c ((dumpsL mac uid)[i]) →
      loads mac (String.mk ((dumpsL mac uid).set i c)) = .ok (uid : Int)) ∧
    (¬(i = (dumpsL mac uid).length - 1 ∧ slackEquiv c ((dumpsL mac uid)[i])) →
      loads mac (String.mk ((dumpsL mac uid).set i c)) =
        .error .badSignature) := by
  have hSlen : (b64encodeL (mac (payloadStr uid))).length = 27 :=
    b64encodeL_length20 (Hlen _)
  have hTlen : (dumpsL mac uid).length = (payloadChars uid).length + 28 := by
    show (payloadChars uid ++
      '.' :: b64encodeL (mac (payloadStr uid))).length = _
    simp only [List.length_append, List.length_cons, hSlen]
  have hval := dumpsL_getElem mac uid i hi
  have hset := dumpsL_set mac uid i c
  refine ⟨loads_create_session_cookie mac uid Hbyte, ?_, ?_⟩ <;>
    rcases Nat.lt_trichotomy i (payloadChars uid).length with hlt | heq | hgt
  -- exception conjunct, payload region: vacuous
  · rintro ⟨hlast, -⟩
    omega
  -- exception conjunct, separator: vacuous
  · rintro ⟨hlast, -⟩
    omega
  -- exception conjunct, signature region
  · rintro ⟨hlast, w₁, w₂, hw₁, hw₂, hw₃⟩
    rw [if_neg (by omega), if_neg (by omega)] at hval hset
    have hj27 : i - (payloadChars uid).length - 1 < 27 := by omega
    have hjlen : i - (payloadChars uid).length - 1 <
        (encVals (mac (payloadStr uid))).length := by
      have : (encVals (mac (payloadStr uid))).length = 27 := by
        rw [encVals_length, Hlen]
        decide
      omega
    cases hcv : charVal c with
    | none =>
        rw [hcv] at hw₁
        exact Option.noConfusion hw₁
    | some v =>
        rw [hcv] at hw₁
        have hw₁' : w₁ = v := (Option.some.inj hw₁).symm
        rw [hval, b64encodeL_getD hjlen] at hw₂
        rw [charVal_valToChar _ (encVals_getD_lt (Hbyte _) hjlen)] at hw₂
        have hw₂' : w₂ = (encVals (mac (payloadStr uid))).getD
            (i - (payloadChars uid).length - 1) 0 :=
          (Option.some.inj hw₂).symm
        have hj26 : i - (payloadChars uid).length - 1 = 26 := by omega
        have hnev : v ≠ (encVals (mac (payloadStr uid))).getD
            (i - (payloadChars uid).length - 1) 0 := by
          intro hveq
          apply hc
          rw [hval, b64encodeL_getD hjlen, charVal_to_valToChar hcv, hveq]
        show loadsL mac ((dumpsL mac uid).set i c) = _
        rw [hset, loadsL_alpha_sig_char mac uid Hbyte Hlen hj27 hcv hnev]
        rw [if_pos ⟨hj26, by rw [← hj26, ← hw₂', ← hw₁']; exact hw₃⟩]
  -- invalid conjunct, payload region
  · intro hnE
    rw [if_pos hlt] at hval hset
    show loadsL mac ((dumpsL mac uid).set i c) = _
    rw [hset]
    apply loadsL_wrong_payload mac uid Hbyte Hcoll
    apply set_ne_self hlt
    rw [← List.getD_eq_getElem _ 'A' hlt, ← hval]
    exact hc
  -- invalid conjunct, separator position
  · intro hnE
    rw [if_neg (by omega), if_pos heq] at hval hset
    have hcd : c ≠ '.' := by rw [hval] at hc; exact hc
    show loadsL mac ((dumpsL mac uid).set i c) = _
    rw [hset]
    apply loadsL_no_dot
    intro hm
    rcases List.mem_append.mp hm with hm' | hm'
    · exact dot_not_mem_payloadChars uid hm'
    · rcases List.mem_cons.mp hm' with hm'' | hm''
      · exact hcd hm''.symm
      · exact dot_not_mem_b64encodeL (Hbyte _) hm''
  -- invalid conjunct, signature region
  · intro hnE
    rw [if_neg (by omega), if_neg (by omega)] at hval hset
    have hj27 : i - (payloadChars uid).length - 1 < 27 := by omega
    have hjlen : i - (payloadChars uid).length - 1 <
        (encVals (mac (payloadStr uid))).length := by
      have : (encVals (mac (payloadStr uid))).length = 27 := by
        rw [encVals_length, Hlen]
        decide
      omega
    show loadsL mac ((dumpsL mac uid).set i c) = _
    rw [hset]
    by_cases hcd : c = '.'
    · rw [hcd]
      exact loadsL_dot_in_sig mac uid Hbyte Hlen hj27
    · cases hcv : charVal c with
      | none => exact loadsL_bad_sig_char mac uid Hbyte Hlen hj27 hcv hcd
      | some v =>
          have hnev : v ≠ (encVals (mac (payloadStr uid))).getD
              (i - (payloadChars uid).length - 1) 0 := by
            intro hveq
            apply hc
            rw [hval, b64encodeL_getD hjlen, charVal_to_valToChar hcv, hveq]
          rw [loadsL_alpha_sig_char mac uid Hbyte Hlen hj27 hcv hnev]
          rw [if_neg ?notexc]
          case notexc =>
            rintro ⟨hj26, hslack⟩
            apply hnE
            refine ⟨by omega, v,
              (encVals (mac (payloadStr uid))).getD
                (i - (payloadChars uid).length - 1) 0, hcv, ?_, ?_⟩
            · rw [hval, b64encodeL_getD hjlen]
              exact charVal_valToChar _ (encVals_getD_lt (Hbyte _) hjlen)
            · rw [hj26]
              exact hslack

/-- C2 as stated is refuted: even granting the idealized MAC hypotheses
(byte output, 20-byte length, collision-freeness against the issued
payload), there is a valid token and a single-character alteration of it
that still verifies: changing the final signature character `A` to `B`
alters only the two excess base64 bits that the decoder discards, so the
token for user 1 still verifies to user 1. -/
theorem C2_single_flip_counterexample :
    ¬ (∀ (mac : String → List Nat) (uid : Nat),
        (∀ s : String, ∀ b ∈ mac s, b < 256) →
        (∀ s : String, (mac s).length = 20) →
        (∀ s : String, s ≠ payloadStr uid → mac s ≠ mac (payloadStr uid)) →
        ∀ i : Nat, ∀ hi : i < (dumpsL mac uid).length, ∀ c : Char,
          c ≠ (dumpsL mac uid)[i] →
          get_user_id_from_cookie mac
            (some (String.mk ((dumpsL mac uid).set i c))) = .ok none) := by
  intro h
  have hbyte : ∀ s : String, ∀ b ∈ macMQ s, b < 256 := by
    intro s b hb
    by_cases hs : s = "MQ" <;>
      simp only [macMQ, hs, if_true, if_false, List.mem_replicate,
        reduceIte] at hb <;>
      omega
  have hlen : ∀ s : String, (macMQ s).length = 20 := by
    intro s
    by_cases hs : s = "MQ" <;> simp [macMQ, hs]
  have hcoll : ∀ s : String,
      s ≠ payloadStr 1 → macMQ s ≠ macMQ (payloadStr 1) := by
    intro s hs
    have hpm : payloadStr 1 = "MQ" := by decide
    rw [hpm] at hs ⊢
    simp only [macMQ, if_neg hs, if_pos rfl]
    decide
  have hi29 : (29 : Nat) < (dumpsL macMQ 1).length := by decide
  have hne29 : 'B' ≠ (dumpsL macMQ 1).get ⟨29, hi29⟩ := by
    rw [List.get_eq_getElem, ← List.getD_eq_getElem _ 'A' hi29]
    decide
  have hclaim := h macMQ 1 hbyte hlen hcoll 29 hi29 'B' hne29
  rw [show get_user_id_from_cookie macMQ
      (some (String.mk ((dumpsL macMQ 1).set 29 'B'))) =
      .ok (some (1 : Int)) from by decide] at hclaim
  exact absurd hclaim (by decide)

/-- Witness for C2 (amended) at the concrete MAC `macMQ`, user id 1,
position 29 (the token's final character) and replacement `B`: the
hypotheses hold, the exception condition is met, and the altered token still
verifies to user 1. -/
theorem C2_token_roundtrip_and_single_flip_witness :
    (loads macMQ (create_session_cookie macMQ 1) = .ok (1 : Int) ∧
      (29 = (dumpsL macMQ 1).length - 1 ∧
          slackEquiv 'B' ((dumpsL macMQ 1).get ⟨29, by decide⟩) →
        loads macMQ (String.mk ((dumpsL macMQ 1).set 29 'B')) =
          .ok (1 : Int)) ∧
      (¬(29 = (dumpsL macMQ 1).length - 1 ∧
          slackEquiv 'B' ((dumpsL macMQ 1).get ⟨29, by decide⟩)) →
        loads macMQ (String.mk ((dumpsL macMQ 1).set 29 'B')) =
          .error .badSignature)) ∧
    loads macMQ (String.mk ((dumpsL macMQ 1).set 29 'B')) = .ok (1 : Int) := by
  have hbyte : ∀ s : String, ∀ b ∈ macMQ s, b < 256 := by
    intro s b hb
    by_cases hs : s = "MQ" <;>
      simp only [macMQ, hs, if_true, if_false, List.mem_replicate,
        reduceIte] at hb <;>
      omega
  have hlen : ∀ s : String, (macMQ s).length = 20 := by
    intro s
    by_cases hs : s = "MQ" <;> simp [macMQ, hs]
  have hcoll : ∀ s : String,
      s ≠ payloadStr 1 → macMQ s ≠ macMQ (payloadStr 1) := by
    intro s hs
    have hpm : payloadStr 1 = "MQ" := by decide
    rw [hpm] at hs ⊢
    simp only [macMQ, if_neg hs, if_pos rfl]
    decide
  have hi29 : (29 : Nat) < (dumpsL macMQ 1).length := by decide
  have hne29 : 'B' ≠ (dumpsL macMQ 1).get ⟨29, hi29⟩ := by
    rw [List.get_eq_getElem, ← List.getD_eq_getElem _ 'A' hi29]
    decide
  have hcharA : charVal ((dumpsL macMQ 1).get ⟨29, hi29⟩) = some 0 := by
    rw [List.get_eq_getElem, ← List.getD_eq_getElem _ 'A' hi29]
    decide
  have happly := C2_token_roundtrip_and_single_flip macMQ 1 29 'B' hbyte hlen
    hcoll hi29 hne29
  refine ⟨⟨happly.1, happly.2.1, happly.2.2⟩, ?_⟩
  exact happly.2.1 ⟨by decide, 1, 0, by decide, hcharA, by decide⟩

end NW
